import Mathlib

/-!
Verification development for the TaleToon retrieval module
(`scripts/retrieval_tfidf.py`).

The Python module is shallowly embedded as follows:

* Strings are Lean `String`s (lists of characters); the Python regular
  expression `\s+` and `str.strip()` are modelled over the ASCII whitespace
  characters (space, tab, newline, carriage return, vertical tab, form feed),
  which is the set on which Python's `\s` and `str.strip` agree and which is
  all the corpus/queries use.  `str.lower()` is modelled by `Char.toLower`
  (ASCII lowercasing).
* Real-number arithmetic (`ln`, square roots, cosine similarity) is embedded
  in `ℝ`; the floating-point rounding of the original is not modelled.
* `numpy.argsort` (ascending) is modelled as a stable ascending sort of the
  index/value pairs; numpy's default quicksort does not promise stability,
  so the model fixes one concrete tie order (the stable one).  `a[::-1]` is
  `List.reverse` and the Python slice `a[:k]` (for any integer `k`, possibly
  negative) is `pySlice`.
* The module-level mutable state (`records`, `vectorizer`, `tfidf_matrix`)
  is an explicit `ModuleState`; `retrieve` is state passing.
* The `TfidfVectorizer(max_df=0.8, min_df=1, stop_words="english",
  ngram_range=(1, 2))` and `cosine_similarity` calls are modelled from the
  semantics of those library functions (sublinear_tf=False, smooth_idf=True,
  norm='l2' defaults): `idf t = ln ((1+N)/(1+df t)) + 1`, rows are
  tf·idf then L2-normalised (a zero row is left as is), cosine similarity
  L2-normalises both arguments and takes the dot product.  One deliberate
  deviation: scikit-learn raises `ValueError` on an empty vocabulary, while
  the model returns a zero-column matrix; no theorem below depends on the
  empty-vocabulary case.
-/

/-! ## Whitespace, lowercasing and `normalize_text` -/

/-- The ASCII whitespace characters: the characters matched both by Python's
`\s` and removed by `str.strip()`. -/
def isWS (c : Char) : Bool :=
  c = ' ' || c = '\t' || c = '\n' || c = '\r' || c = '\x0b' || c = '\x0c'

/-- Python `str.lstrip()` on characters. -/
def lstripChars (l : List Char) : List Char := l.dropWhile isWS

/-- Python `str.rstrip()` on characters. -/
def rstripChars (l : List Char) : List Char := (l.reverse.dropWhile isWS).reverse

/-- Python `str.strip()` on characters. -/
def stripChars (l : List Char) : List Char := rstripChars (lstripChars l)

/-- Python `str.lower()` on characters (ASCII lowercasing). -/
def lowerChars (l : List Char) : List Char := l.map Char.toLower

/-- Collapse every maximal run of whitespace to a single `' '`
(`re.sub(r"\s+", " ", ·)`).  The boolean records whether the previous
character was part of a whitespace run. -/
def collapseAux : Bool → List Char → List Char
  | _, [] => []
  | prev, c :: rest =>
    if isWS c then
      if prev then collapseAux true rest else ' ' :: collapseAux true rest
    else
      c :: collapseAux false rest

/-- `re.sub(r"\s+", " ", ·)` on characters. -/
def collapseWS (l : List Char) : List Char := collapseAux false l

/-- The character-level body of `normalize_text`:
`re.sub(r"\s+", " ", s.strip().lower())`. -/
def normChars (l : List Char) : List Char := collapseWS (lowerChars (stripChars l))

/-- `normalize_text` from `retrieval_tfidf.py` (line 83–84):
`re.sub(r"\s+", " ", s.strip().lower())`. -/
def normalize_text (s : String) : String := String.mk (normChars s.data)

/-- The Python value passed to `normalize_text` may be `None` (absent); calling
`.strip()` on `None` raises `AttributeError`.  Fallible application of the
normalizer is modelled with `Except`. -/
inductive PyErr where
  | attributeError
deriving DecidableEq

/-- `normalize_text` applied to a possibly-missing (`None`) argument:
`None.strip()` raises `AttributeError`; a string is normalized. -/
def pyNormalizeText : Option String → Except PyErr String
  | none => Except.error PyErr.attributeError
  | some s => Except.ok (normalize_text s)

/-! ### Structural predicates used to state what `normalize_text` produces -/

/-- No two adjacent whitespace characters. -/
def noAdjWS : List Char → Bool
  | a :: b :: r => (!(isWS a && isWS b)) && noAdjWS (b :: r)
  | _ => true

/-- The first character, if any, is not whitespace. -/
def headNotWS : List Char → Bool
  | [] => true
  | c :: _ => !isWS c

/-- The last character, if any, is not whitespace. -/
def lastNotWS : List Char → Bool
  | [] => true
  | [c] => !isWS c
  | _ :: d :: r => lastNotWS (d :: r)

/-- Every character is lowercase-stable and the only whitespace character
occurring is the plain space. -/
def lowerSpaceOnly (l : List Char) : Bool :=
  l.all (fun c => (Char.toLower c = c) && (!(isWS c) || c = ' '))

/-- Fully normalized text: lowercase, interior whitespace collapsed to single
spaces (no two adjacent, only `' '` as whitespace), no leading or trailing
whitespace. -/
def wellNormed (l : List Char) : Bool :=
  lowerSpaceOnly l && noAdjWS l && headNotWS l && lastNotWS l

/-! ## Python slice and numpy argsort -/

/-- The Python/numpy slice `l[:k]` for an arbitrary integer `k`: a nonnegative
`k` takes the first `k` elements (clamped at the length), a negative `k`
drops the last `-k` elements. -/
def pySlice {α : Type*} (k : Int) (l : List α) : List α :=
  if 0 ≤ k then l.take k.toNat else l.take ((l.length : Int) + k).toNat

/-- Insert an index/value pair into a value-sorted list, before the first
entry whose value is not smaller (so an earlier-inserted equal value stays
first: stable ascending insertion). -/
def insPair {α : Type*} [LinearOrder α] (p : Nat × α) : List (Nat × α) → List (Nat × α)
  | [] => [p]
  | q :: rest => if q.2 < p.2 then q :: insPair p rest else p :: q :: rest

/-- Stable insertion sort of index/value pairs by ascending value. -/
def isortPairs {α : Type*} [LinearOrder α] : List (Nat × α) → List (Nat × α)
  | [] => []
  | p :: rest => insPair p (isortPairs rest)

/-- `numpy.argsort` (ascending), modelled as a stable sort of the indices by
value; numpy's default quicksort fixes no tie order, the model uses the
stable one. -/
def argsort {α : Type*} [LinearOrder α] (vs : List α) : List Nat :=
  (isortPairs vs.enum).map Prod.fst

/-- `sims.argsort()[::-1][:top_k]` from `retrieve`. -/
def rankTopK {α : Type*} [LinearOrder α] (vs : List α) (top_k : Int) : List Nat :=
  pySlice top_k (argsort vs).reverse

/-- Proof-side strict order on index/value pairs: ascending value, ties by
ascending index.  `isortPairs` sorts by exactly this order (that is what
stability of the ascending sort means); this relation never appears in the
embedding itself, only in lemmas about it. -/
def RlexP {α : Type*} [LinearOrder α] (p q : Nat × α) : Prop :=
  p.2 < q.2 ∨ (p.2 = q.2 ∧ p.1 < q.1)

/-! ## The scikit-learn analyzer: token pattern, stop words, 1–2-grams

Modelled from the semantics of `TfidfVectorizer(max_df=0.8, min_df=1,
stop_words="english", ngram_range=(1, 2))` as invoked at
`retrieval_tfidf.py` lines 67–72: lowercase the document, extract maximal
runs of word characters keeping those of length ≥ 2, drop English stop
words, then emit all unigrams and (space-joined) bigrams. -/

/-- Python `\w` (ASCII part): letters, digits, underscore. -/
def isWordChar (c : Char) : Bool := c.isAlphanum || c = '_'

/-- Split into maximal runs of word characters, keeping runs of length ≥ 2
(the `(?u)\b\w\w+\b` token pattern).  The first argument is the input,
the second the current run, reversed. -/
def tokenizeAux : List Char → List Char → List String
  | [], cur => if 2 ≤ cur.length then [String.mk cur.reverse] else []
  | c :: rest, cur =>
    if isWordChar c then tokenizeAux rest (c :: cur)
    else (if 2 ≤ cur.length then [String.mk cur.reverse] else []) ++ tokenizeAux rest []

/-- scikit-learn's tokens of a document: lowercase, then split by the token
pattern. -/
def sklearnTokens (s : String) : List String := tokenizeAux (lowerChars s.data) []

/-- scikit-learn's built-in English stop-word list (`ENGLISH_STOP_WORDS`). -/
def englishStopWords : List String :=
  ["a", "about", "above", "across", "after", "afterwards", "again", "against",
   "all", "almost", "alone", "along", "already", "also", "although", "always",
   "am", "among", "amongst", "amoungst", "amount", "an", "and", "another",
   "any", "anyhow", "anyone", "anything", "anyway", "anywhere", "are",
   "around", "as", "at", "back", "be", "became", "because", "become",
   "becomes", "becoming", "been", "before", "beforehand", "behind", "being",
   "below", "beside", "besides", "between", "beyond", "bill", "both",
   "bottom", "but", "by", "call", "can", "cannot", "cant", "co", "con",
   "could", "couldnt", "cry", "de", "describe", "detail", "do", "done",
   "down", "due", "during", "each", "eg", "eight", "either", "eleven",
   "else", "elsewhere", "empty", "enough", "etc", "even", "ever", "every",
   "everyone", "everything", "everywhere", "except", "few", "fifteen",
   "fifty", "fill", "find", "fire", "first", "five", "for", "former",
   "formerly", "forty", "found", "four", "from", "front", "full", "further",
   "get", "give", "go", "had", "has", "hasnt", "have", "he", "hence", "her",
   "here", "hereafter", "hereby", "herein", "hereupon", "hers", "herself",
   "him", "himself", "his", "how", "however", "hundred", "i", "ie", "if",
   "in", "inc", "indeed", "interest", "into", "is", "it", "its", "itself",
   "keep", "last", "latter", "latterly", "least", "less", "ltd", "made",
   "many", "may", "me", "meanwhile", "might", "mill", "mine", "more",
   "moreover", "most", "mostly", "move", "much", "must", "my", "myself",
   "name", "namely", "neither", "never", "nevertheless", "next", "nine",
   "no", "nobody", "none", "noone", "nor", "not", "nothing", "now",
   "nowhere", "of", "off", "often", "on", "once", "one", "only", "onto",
   "or", "other", "others", "otherwise", "our", "ours", "ourselves", "out",
   "over", "own", "part", "per", "perhaps", "please", "put", "rather", "re",
   "same", "see", "seem", "seemed", "seeming", "seems", "serious", "several",
   "she", "should", "show", "side", "since", "sincere", "six", "sixty", "so",
   "some", "somehow", "someone", "something", "sometime", "sometimes",
   "somewhere", "still", "such", "system", "take", "ten", "than", "that",
   "the", "their", "them", "themselves", "then", "thence", "there",
   "thereafter", "thereby", "therefore", "therein", "thereupon", "these",
   "they", "thick", "thin", "third", "this", "those", "though", "three",
   "through", "throughout", "thru", "thus", "to", "together", "too", "top",
   "toward", "towards", "twelve", "twenty", "two", "un", "under", "until",
   "up", "upon", "us", "very", "via", "was", "we", "well", "were", "what",
   "whatever", "when", "whence", "whenever", "where", "whereafter",
   "whereas", "whereby", "wherein", "whereupon", "whether", "which", "while",
   "whither", "who", "whoever", "whole", "whom", "whose", "why", "will",
   "with", "within", "without", "would", "yet", "you", "your", "yours",
   "yourself", "yourselves"]

/-- Unigrams and adjacent (space-joined) bigrams: `ngram_range=(1, 2)`. -/
def ngrams12 (ts : List String) : List String :=
  ts ++ List.zipWith (fun a b => a ++ " " ++ b) ts ts.tail

/-- The full analyzer of the fitted vectorizer: tokens, minus stop words,
then 1–2-grams. -/
def analyzeDoc (s : String) : List String :=
  ngrams12 ((sklearnTokens s).filter (fun t => !decide (t ∈ englishStopWords)))

/-! ## Vocabulary building and TF-IDF weighting -/

/-- Document frequency of a term: the number of corpus documents whose
analyzed term multiset contains it. -/
def docFreq (corpus : List String) (t : String) : Nat :=
  corpus.countP (fun d => decide (t ∈ analyzeDoc d))

/-- All distinct candidate terms, in first-occurrence order. -/
def candidateTerms (corpus : List String) : List String :=
  ((corpus.map analyzeDoc).flatten).dedup

/-- `min_df=1 ≤ df` and `df ≤ max_df·N` with `max_df = 0.8` (as the exact
rational `4/5`). -/
def keepTerm (corpus : List String) (t : String) : Bool :=
  (1 ≤ docFreq corpus t) && (5 * docFreq corpus t ≤ 4 * corpus.length)

/-- Code-point lexicographic comparison of character lists (the order
Python's `sorted` uses on strings). -/
def charListLt : List Char → List Char → Bool
  | [], [] => false
  | [], _ :: _ => true
  | _ :: _, [] => false
  | a :: as, b :: bs =>
    if a.toNat < b.toNat then true
    else if b.toNat < a.toNat then false
    else charListLt as bs

/-- Code-point lexicographic order on strings. -/
def strLtB (a b : String) : Bool := charListLt a.data b.data

/-- Insertion into a lexicographically sorted list of strings. -/
def insertStr (t : String) : List String → List String
  | [] => [t]
  | s :: rest => if strLtB s t then s :: insertStr t rest else t :: s :: rest

/-- Lexicographic insertion sort (scikit-learn sorts its vocabulary). -/
def sortStrings : List String → List String
  | [] => []
  | t :: rest => insertStr t (sortStrings rest)

/-- The fitted vocabulary: surviving terms in sorted order. -/
def vocabOf (corpus : List String) : List String :=
  sortStrings ((candidateTerms corpus).filter (keepTerm corpus))

/-- The smoothed IDF vector (`smooth_idf=True`):
`idf t = ln ((1+N)/(1+df t)) + 1`. -/
noncomputable def idfOf (corpus : List String) : List ℝ :=
  (vocabOf corpus).map (fun t =>
    Real.log ((1 + (corpus.length : ℝ)) / (1 + (docFreq corpus t : ℝ))) + 1)

/-- Raw term counts of one document against the vocabulary. -/
def tfRow (corpus : List String) (d : String) : List ℕ :=
  (vocabOf corpus).map (fun t => (analyzeDoc d).count t)

/-- The unnormalized TF-IDF row of one document. -/
noncomputable def rawRow (corpus : List String) (d : String) : List ℝ :=
  List.zipWith (fun (tf : ℕ) (idf : ℝ) => (tf : ℝ) * idf) (tfRow corpus d) (idfOf corpus)

/-- Sum of squares of a vector. -/
def sumSq (v : List ℝ) : ℝ := (v.map (fun x => x ^ 2)).sum

/-- Euclidean norm. -/
noncomputable def l2norm (v : List ℝ) : ℝ := Real.sqrt (sumSq v)

/-- L2 normalization as scikit-learn performs it (`norm="l2"`): divide by the
Euclidean norm, leaving a zero vector unchanged. -/
noncomputable def l2normalize (v : List ℝ) : List ℝ :=
  if l2norm v = 0 then v else v.map (fun x => x / l2norm v)

/-- The fitted vectorizer state persisted in `tfidf_vectorizer.pkl`:
vocabulary and IDF vector. -/
structure VecState where
  vocab : List String
  idf : List ℝ

/-- `TfidfVectorizer(...).fit(corpus)`: vocabulary plus IDF vector. -/
noncomputable def fitVectorizer (corpus : List String) : VecState :=
  ⟨vocabOf corpus, idfOf corpus⟩

/-- `fit_transform(corpus)`: one L2-normalized TF-IDF row per document
(the persisted `tfidf_matrix`). -/
noncomputable def fitMatrix (corpus : List String) : List (List ℝ) :=
  corpus.map (fun d => l2normalize (rawRow corpus d))

/-- `vectorizer.transform([s])` for a fitted vectorizer: counts against the
stored vocabulary, multiplied by the stored IDF, L2-normalized. -/
noncomputable def transformDoc (v : VecState) (s : String) : List ℝ :=
  l2normalize (List.zipWith (fun t idf => ((analyzeDoc s).count t : ℝ) * idf) v.vocab v.idf)

/-- Dot product of two vectors. -/
def dotL (u v : List ℝ) : ℝ := (List.zipWith (fun a b => a * b) u v).sum

/-- `sklearn.metrics.pairwise.cosine_similarity` on a pair of rows:
L2-normalize both, then dot product (zero rows stay zero). -/
noncomputable def cosineSim (u v : List ℝ) : ℝ := dotL (l2normalize u) (l2normalize v)

/-! ## Corpus construction from the cleaned dataset records -/

/-- One record of `festivals_cleaned.json`; `rec.get(key)` yielding `None`
for an absent key is modelled with `Option`. -/
structure FestivalRec where
  festival_id : Option String
  canonical_name : Option String
  alternate_names : Option (List String)
  refined_summary : Option String
  clean_description : Option String
  regions_normalized : Option (List String)
  rituals_normalized : Option (List String)
deriving DecidableEq

/-- The record with every field absent. -/
def defaultRec : FestivalRec := ⟨none, none, none, none, none, none, none⟩

/-- `build_search_text` (lines 31–49): canonical name, alternate names (when
a list), refined summary, clean description, normalized rituals (when a
list), joined by spaces with falsy (empty) parts dropped, then
`re.sub(r"\s+", " ", text.strip().lower())` — the same normalization body
as `normalize_text`. -/
def build_search_text (rec : FestivalRec) : String :=
  let parts : List String :=
    [rec.canonical_name.getD ""] ++
    (match rec.alternate_names with | some l => l | none => []) ++
    [rec.refined_summary.getD "", rec.clean_description.getD ""] ++
    (match rec.rituals_normalized with | some l => l | none => [])
  normalize_text (String.intercalate " " (parts.filter (fun p => !decide (p = ""))))

/-- `corpus = [build_search_text(rec) for rec in records]`. -/
def corpusOf (records : List FestivalRec) : List String := records.map build_search_text

/-! ## The retrieval function and module state -/

/-- One entry of the list `retrieve` returns. -/
structure RankedResult where
  festival_id : Option String
  canonical_name : Option String
  refined_summary : Option String
  regions : Option (List String)
  rituals : Option (List String)
  score : ℝ

/-- Out-of-range default for `getD` on result lists (never reached by the
in-range theorems; its score is 0). -/
def defaultResult : RankedResult := ⟨none, none, none, none, none, 0⟩

/-- The result dictionary built for index `idx` in the loop of `retrieve`
(lines 98–107): the record's fields plus `float(sims[idx])`. -/
def mkResult (records : List FestivalRec) (sims : List ℝ) (idx : ℕ) : RankedResult :=
  { festival_id := (records.getD idx defaultRec).festival_id
    canonical_name := (records.getD idx defaultRec).canonical_name
    refined_summary := (records.getD idx defaultRec).refined_summary
    regions := (records.getD idx defaultRec).regions_normalized
    rituals := (records.getD idx defaultRec).rituals_normalized
    score := sims.getD idx 0 }

/-- The module-level shared state read by `retrieve`: `records`,
`vectorizer`, `tfidf_matrix`. -/
structure ModuleState where
  records : List FestivalRec
  vectorizer : VecState
  tfidf_matrix : List (List ℝ)

/-- `cosine_similarity(vectorizer.transform([normalize_text(query)]),
tfidf_matrix).flatten()`. -/
noncomputable def simsOf (v : VecState) (m : List (List ℝ)) (query : String) : List ℝ :=
  m.map (fun row => cosineSim (transformDoc v (normalize_text query)) row)

/-- `retrieve(query, top_k)` as a state-passing function: every step only
reads the module state (string ops, `transform`, `cosine_similarity`,
`argsort` and the result loop all allocate fresh values), so the state
component of the result is the input state. -/
noncomputable def retrieveSt (st : ModuleState) (query : String) (top_k : Int) :
    List RankedResult × ModuleState :=
  let sims := simsOf st.vectorizer st.tfidf_matrix query
  let top_idx := rankTopK sims top_k
  (top_idx.map (mkResult st.records sims), st)

/-- `retrieve` against explicitly given fitted artifacts. -/
noncomputable def retrieveWith (v : VecState) (m : List (List ℝ))
    (records : List FestivalRec) (query : String) (top_k : Int) : List RankedResult :=
  (retrieveSt ⟨records, v, m⟩ query top_k).1

/-- `retrieve(query, top_k)` of the module whose corpus was freshly fitted
from `records` (the build branch of lines 65–77). -/
noncomputable def retrieve (records : List FestivalRec) (query : String) (top_k : Int) :
    List RankedResult :=
  retrieveWith (fitVectorizer (corpusOf records)) (fitMatrix (corpusOf records))
    records query top_k

/-- The document indices `top_idx = sims.argsort()[::-1][:top_k]` chosen by
`retrieve` for a freshly fitted corpus. -/
noncomputable def rankedIndices (records : List FestivalRec) (query : String) (top_k : Int) :
    List ℕ :=
  rankTopK (simsOf (fitVectorizer (corpusOf records)) (fitMatrix (corpusOf records)) query)
    top_k

/-! ## The persisted index -/

/-- The two on-disk artifacts, `tfidf_vectorizer.pkl` and `tfidf_matrix.npz`
(`none` = file absent).  Pickle and `save_npz`/`load_npz` round-trip the
stored values exactly, so a present file simply holds the stored value. -/
structure IndexFiles where
  vec_file : Option VecState
  matrix_file : Option (List (List ℝ))

/-- The module-level load-or-build branch (lines 61–77): if both files
exist, load them verbatim (no validation of any kind); otherwise fit from
the corpus and save both artifacts. -/
noncomputable def loadOrBuild (fs : IndexFiles) (corpus : List String) :
    (VecState × List (List ℝ)) × IndexFiles :=
  match fs.vec_file, fs.matrix_file with
  | some v, some m => ((v, m), fs)
  | _, _ =>
    ((fitVectorizer corpus, fitMatrix corpus),
     ⟨some (fitVectorizer corpus), some (fitMatrix corpus)⟩)

/-- Shape consistency of persisted artifacts with each other and the
document list: row count = number of documents, every row as wide as the
vocabulary, IDF as long as the vocabulary. -/
def shapeConsistent (v : VecState) (m : List (List ℝ)) (records : List FestivalRec) : Prop :=
  m.length = records.length ∧ (∀ row ∈ m, row.length = v.vocab.length) ∧
    v.idf.length = v.vocab.length

/-- A record carrying only an identifier and a canonical name; used for the
concrete corpora of the counterexamples and witnesses. -/
def recOf (fid name : String) : FestivalRec :=
  ⟨some fid, some name, none, none, none, none, none⟩

/-- A persisted vectorizer state whose vocabulary has two terms. -/
def badVec : VecState := ⟨["festival", "lights"], [1, 1]⟩

/-- A persisted matrix with a single row of width one — shape-inconsistent
both with `badVec` (vocabulary size 2) and with a two-record document
list. -/
def badMatrix : List (List ℝ) := [[1]]

/-! ## Character-level lemmas -/

theorem char_toNat_ofNat (n : Nat) (h : n < 0xd800) : (Char.ofNat n).toNat = n := by
  simp [Char.ofNat, Or.inl h, Nat.isValidChar, Char.ofNatAux, Char.toNat, UInt32.toNat,
    BitVec.toNat_ofNatLt]

theorem char_eq_iff_toNat (c d : Char) : (c = d) ↔ c.toNat = d.toNat := by
  constructor
  · intro h; rw [h]
  · intro h
    exact Char.ext (UInt32.toNat.inj h)

theorem isWS_eq (c : Char) :
    isWS c = (c.toNat = 32 || c.toNat = 9 || c.toNat = 10 || c.toNat = 13 || c.toNat = 11 || c.toNat = 12) := by
  simp only [isWS, char_eq_iff_toNat]
  rfl

theorem toNat_toLower (c : Char) :
    (Char.toLower c).toNat = if 65 ≤ c.toNat ∧ c.toNat ≤ 90 then c.toNat + 32 else c.toNat := by
  unfold Char.toLower
  by_cases h : 65 ≤ c.toNat ∧ c.toNat ≤ 90
  · rw [if_pos h, if_pos h]
    exact char_toNat_ofNat _ (by omega)
  · rw [if_neg h, if_neg h]

theorem toLower_toLower (c : Char) : Char.toLower (Char.toLower c) = Char.toLower c := by
  rw [char_eq_iff_toNat]
  simp only [toNat_toLower]
  split_ifs <;> omega

theorem isWS_toLower (c : Char) : isWS (Char.toLower c) = isWS c := by
  rw [isWS_eq, isWS_eq, toNat_toLower]
  rw [Bool.eq_iff_iff]
  by_cases h : 65 ≤ c.toNat ∧ c.toNat ≤ 90
  · rw [if_pos h]
    simp only [Bool.or_eq_true, decide_eq_true_eq]
    omega
  · rw [if_neg h]


/-! ## Lemmas about the normalization pipeline -/

theorem lastNotWS_cons₂ (a : Char) (X : List Char) (h : X ≠ []) :
    lastNotWS (a :: X) = lastNotWS X := by
  cases X with
  | nil => exact absurd rfl h
  | cons d r => rfl

theorem noAdjWS_tail (a : Char) (X : List Char) (h : noAdjWS (a :: X) = true) :
    noAdjWS X = true := by
  cases X with
  | nil => rfl
  | cons d r =>
    unfold noAdjWS at h
    exact (Bool.and_eq_true _ _ |>.mp h).2

theorem noAdjWS_cons (a : Char) (X : List Char)
    (h1 : isWS a = false ∨ headNotWS X = true) (h2 : noAdjWS X = true) :
    noAdjWS (a :: X) = true := by
  cases X with
  | nil => rfl
  | cons d r =>
    unfold noAdjWS
    rw [Bool.and_eq_true]
    refine ⟨?_, h2⟩
    rcases h1 with h1 | h1
    · simp [h1]
    · unfold headNotWS at h1
      simp only [Bool.not_eq_true'] at h1
      simp [h1]

theorem headNotWS_reverse (l : List Char) : headNotWS l.reverse = lastNotWS l := by
  induction l with
  | nil => rfl
  | cons c r ih =>
    cases r with
    | nil => rfl
    | cons d t =>
      have hne : (d :: t : List Char).reverse ≠ [] := by simp
      rw [List.reverse_cons, lastNotWS_cons₂ c (d :: t) (by simp)]
      rw [← ih]
      cases hrev : (d :: t : List Char).reverse with
      | nil => exact absurd hrev hne
      | cons e s => rfl

theorem headNotWS_dropWhile (l : List Char) : headNotWS (l.dropWhile isWS) = true := by
  induction l with
  | nil => rfl
  | cons c r ih =>
    rw [List.dropWhile_cons]
    by_cases h : isWS c = true
    · simp only [h, if_true]
      exact ih
    · simp only [Bool.not_eq_true] at h
      simp [h, headNotWS]

theorem headNotWS_of_prefix (p l : List Char) (hp : p <+: l) (h : headNotWS l = true) :
    headNotWS p = true := by
  rcases hp with ⟨t, rfl⟩
  cases p with
  | nil => rfl
  | cons c r => exact h

theorem mem_collapseAux (b : Bool) (l : List Char) (c : Char) (h : c ∈ collapseAux b l) :
    c = ' ' ∨ (c ∈ l ∧ isWS c = false) := by
  induction l generalizing b with
  | nil => simp [collapseAux] at h
  | cons d r ih =>
    unfold collapseAux at h
    by_cases hd : isWS d = true
    · rw [if_pos hd] at h
      cases b with
      | true =>
        rcases ih true h with h' | h'
        · exact Or.inl h'
        · exact Or.inr ⟨List.mem_cons_of_mem d h'.1, h'.2⟩
      | false =>
        simp only [Bool.false_eq_true, if_false, List.mem_cons] at h
        rcases h with h | h
        · exact Or.inl h
        · rcases ih true h with h' | h'
          · exact Or.inl h'
          · exact Or.inr ⟨List.mem_cons_of_mem d h'.1, h'.2⟩
    · simp only [Bool.not_eq_true] at hd
      rw [if_neg (by simp [hd])] at h
      rcases List.mem_cons.mp h with h | h
      · subst h
        exact Or.inr ⟨List.mem_cons_self c r, hd⟩
      · rcases ih false h with h' | h'
        · exact Or.inl h'
        · exact Or.inr ⟨List.mem_cons_of_mem d h'.1, h'.2⟩

theorem headNotWS_collapseAux_true (l : List Char) :
    headNotWS (collapseAux true l) = true := by
  induction l with
  | nil => rfl
  | cons c r ih =>
    unfold collapseAux
    by_cases hc : isWS c = true
    · rw [if_pos hc]
      exact ih
    · simp only [Bool.not_eq_true] at hc
      rw [if_neg (by simp [hc])]
      simp [headNotWS, hc]

theorem noAdjWS_collapseAux (b : Bool) (l : List Char) :
    noAdjWS (collapseAux b l) = true := by
  induction l generalizing b with
  | nil => rfl
  | cons c r ih =>
    unfold collapseAux
    by_cases hc : isWS c = true
    · rw [if_pos hc]
      cases b with
      | true => exact ih true
      | false =>
        simp only [Bool.false_eq_true, if_false]
        exact noAdjWS_cons ' ' _ (Or.inr (headNotWS_collapseAux_true r)) (ih true)
    · simp only [Bool.not_eq_true] at hc
      rw [if_neg (by simp [hc])]
      exact noAdjWS_cons c _ (Or.inl hc) (ih false)

theorem headNotWS_collapseAux_false (l : List Char) (h : headNotWS l = true) :
    headNotWS (collapseAux false l) = true := by
  cases l with
  | nil => rfl
  | cons c r =>
    unfold headNotWS at h
    simp only [Bool.not_eq_true'] at h
    unfold collapseAux
    rw [if_neg (by simp [h])]
    simp [headNotWS, h]

theorem collapseAux_true_eq_nil (l : List Char) (h : collapseAux true l = []) :
    l.all isWS = true := by
  induction l with
  | nil => rfl
  | cons c r ih =>
    unfold collapseAux at h
    by_cases hc : isWS c = true
    · rw [if_pos hc] at h
      simp [List.all_cons, hc, ih h]
    · simp only [Bool.not_eq_true] at hc
      rw [if_neg (by simp [hc])] at h
      exact absurd h (by simp)

theorem lastNotWS_all_ws (l : List Char) (hne : l ≠ []) (h : l.all isWS = true) :
    lastNotWS l = false := by
  induction l with
  | nil => exact absurd rfl hne
  | cons c r ih =>
    cases r with
    | nil =>
      simp only [List.all_cons, List.all_nil, Bool.and_true] at h
      simp [lastNotWS, h]
    | cons d t =>
      rw [lastNotWS_cons₂ c (d :: t) (by simp)]
      exact ih (by simp) (by simp only [List.all_cons, Bool.and_eq_true] at h ⊢; exact h.2)

theorem lastNotWS_collapseAux (b : Bool) (l : List Char) (h : lastNotWS l = true) :
    lastNotWS (collapseAux b l) = true := by
  induction l generalizing b with
  | nil => rfl
  | cons c r ih =>
    cases r with
    | nil =>
      unfold lastNotWS at h
      simp only [Bool.not_eq_true'] at h
      unfold collapseAux
      rw [if_neg (by simp [h])]
      simp [collapseAux, lastNotWS, h]
    | cons d t =>
      rw [lastNotWS_cons₂ c (d :: t) (by simp)] at h
      unfold collapseAux
      by_cases hc : isWS c = true
      · rw [if_pos hc]
        cases b with
        | true => exact ih true h
        | false =>
          simp only [Bool.false_eq_true, if_false]
          cases hX : collapseAux true (d :: t) with
          | nil =>
            have hall := collapseAux_true_eq_nil (d :: t) hX
            have := lastNotWS_all_ws (d :: t) (by simp) hall
            rw [h] at this
            exact absurd this (by simp)
          | cons e s =>
            rw [lastNotWS_cons₂ ' ' (e :: s) (by simp)]
            rw [← hX]
            exact ih true h
      · simp only [Bool.not_eq_true] at hc
        rw [if_neg (by simp [hc])]
        cases hX : collapseAux false (d :: t) with
        | nil => simp [lastNotWS, hc]
        | cons e s =>
          rw [lastNotWS_cons₂ c (e :: s) (by simp)]
          rw [← hX]
          exact ih false h

theorem collapseAux_id (l : List Char)
    (hall : ∀ c ∈ l, isWS c = true → c = ' ') (hadj : noAdjWS l = true) :
    collapseAux false l = l ∧ (headNotWS l = true → collapseAux true l = l) := by
  induction l with
  | nil => exact ⟨rfl, fun _ => rfl⟩
  | cons c r ih =>
    have hallr : ∀ d ∈ r, isWS d = true → d = ' ' :=
      fun d hd => hall d (List.mem_cons_of_mem c hd)
    have hadjr : noAdjWS r = true := noAdjWS_tail c r hadj
    have ihr := ih hallr hadjr
    by_cases hc : isWS c = true
    · have hsp : c = ' ' := hall c (List.mem_cons_self c r) hc
      constructor
      · unfold collapseAux
        rw [if_pos hc]
        simp only [Bool.false_eq_true, if_false]
        have hr : collapseAux true r = r := by
          cases r with
          | nil => rfl
          | cons d t =>
            apply ihr.2
            unfold noAdjWS at hadj
            rw [Bool.and_eq_true] at hadj
            have := hadj.1
            rw [hc] at this
            simp only [Bool.true_and, Bool.not_eq_true'] at this
            simp [headNotWS, this]
        rw [hr, hsp]
      · intro hhd
        simp only [headNotWS, hc] at hhd
        exact absurd hhd (by simp)
    · simp only [Bool.not_eq_true] at hc
      constructor
      · unfold collapseAux
        rw [if_neg (by simp [hc])]
        rw [ihr.1]
      · intro _
        unfold collapseAux
        rw [if_neg (by simp [hc])]
        rw [ihr.1]

theorem lowerChars_id (l : List Char) (h : ∀ c ∈ l, Char.toLower c = c) :
    lowerChars l = l := by
  unfold lowerChars
  induction l with
  | nil => rfl
  | cons c r ih =>
    rw [List.map_cons, h c (List.mem_cons_self c r),
      ih (fun d hd => h d (List.mem_cons_of_mem c hd))]

theorem lstripChars_id (l : List Char) (h : headNotWS l = true) : lstripChars l = l := by
  cases l with
  | nil => rfl
  | cons c r =>
    unfold headNotWS at h
    simp only [Bool.not_eq_true'] at h
    unfold lstripChars
    rw [List.dropWhile_cons, if_neg (by simp [h])]

theorem rstripChars_id (l : List Char) (h : lastNotWS l = true) : rstripChars l = l := by
  unfold rstripChars
  rw [← headNotWS_reverse] at h
  rw [show List.dropWhile isWS l.reverse = l.reverse from lstripChars_id l.reverse h,
    List.reverse_reverse]

theorem lowerSpaceOnly_normChars (l : List Char) : lowerSpaceOnly (normChars l) = true := by
  unfold lowerSpaceOnly
  rw [List.all_eq_true]
  intro c hc
  rcases mem_collapseAux false _ c hc with h | h
  · subst h
    decide
  · rcases h with ⟨hmem, hws⟩
    unfold lowerChars at hmem
    rcases List.mem_map.mp hmem with ⟨d, _, rfl⟩
    rw [Bool.and_eq_true]
    constructor
    · simp [toLower_toLower]
    · simp [hws]

theorem headNotWS_stripChars (l : List Char) : headNotWS (stripChars l) = true := by
  have hpre : rstripChars (lstripChars l) <+: lstripChars l := by
    unfold rstripChars
    have h1 : List.dropWhile isWS (lstripChars l).reverse <:+ (lstripChars l).reverse :=
      List.dropWhile_suffix isWS
    have h2 := List.reverse_prefix.mpr h1
    rwa [List.reverse_reverse] at h2
  exact headNotWS_of_prefix _ _ hpre (headNotWS_dropWhile l)

theorem lastNotWS_stripChars (l : List Char) : lastNotWS (stripChars l) = true := by
  unfold stripChars rstripChars
  rw [← headNotWS_reverse, List.reverse_reverse]
  exact headNotWS_dropWhile _

theorem headNotWS_lowerChars (l : List Char) : headNotWS (lowerChars l) = headNotWS l := by
  cases l with
  | nil => rfl
  | cons c r => simp [lowerChars, headNotWS, isWS_toLower]

theorem lastNotWS_lowerChars (l : List Char) : lastNotWS (lowerChars l) = lastNotWS l := by
  induction l with
  | nil => rfl
  | cons c r ih =>
    cases r with
    | nil => simp [lowerChars, lastNotWS, isWS_toLower]
    | cons d t =>
      rw [lastNotWS_cons₂ c (d :: t) (by simp)]
      rw [show lowerChars (c :: d :: t) = Char.toLower c :: lowerChars (d :: t) from rfl]
      rw [lastNotWS_cons₂ _ _ (by simp [lowerChars])]
      exact ih

theorem wellNormed_normChars (l : List Char) : wellNormed (normChars l) = true := by
  unfold wellNormed
  simp only [Bool.and_eq_true]
  refine ⟨⟨⟨lowerSpaceOnly_normChars l, ?_⟩, ?_⟩, ?_⟩
  · exact noAdjWS_collapseAux false _
  · unfold normChars collapseWS
    apply headNotWS_collapseAux_false
    rw [headNotWS_lowerChars]
    exact headNotWS_stripChars l
  · unfold normChars collapseWS
    apply lastNotWS_collapseAux
    rw [lastNotWS_lowerChars]
    exact lastNotWS_stripChars l

theorem normChars_id (l : List Char) (h : wellNormed l = true) : normChars l = l := by
  unfold wellNormed at h
  simp only [Bool.and_eq_true] at h
  obtain ⟨⟨⟨hlso, hadj⟩, hhd⟩, hlast⟩ := h
  unfold normChars stripChars collapseWS
  rw [lstripChars_id l hhd, rstripChars_id l hlast]
  have hlid : lowerChars l = l := by
    apply lowerChars_id
    intro c hc
    have := (List.all_eq_true.mp hlso) c hc
    rw [Bool.and_eq_true] at this
    simpa using this.1
  rw [hlid]
  apply (collapseAux_id l ?_ hadj).1
  intro c hc hws
  have := (List.all_eq_true.mp hlso) c hc
  rw [Bool.and_eq_true] at this
  have h2 := this.2
  rw [hws] at h2
  simpa using h2


/-- Claim C6: for every text `x`, `normalize_text x` is lowercase with every
run of whitespace/newline characters collapsed to a single space and with
leading/trailing whitespace removed (`wellNormed`), and normalization is
idempotent: `normalize_text (normalize_text x) = normalize_text x`. -/
theorem claim_C6_normalize_idempotent (s : String) :
    normalize_text (normalize_text s) = normalize_text s ∧
      wellNormed (normalize_text s).data = true := by
  constructor
  · show String.mk (normChars (normChars s.data)) = String.mk (normChars s.data)
    rw [normChars_id _ (wellNormed_normChars s.data)]
  · show wellNormed (normChars s.data) = true
    exact wellNormed_normChars s.data

/-- Claim C7, counterexample: applying the normalizer to a missing (`None`)
input does NOT yield the empty string — `None.strip()` raises
`AttributeError`, so `normalize_text(None)` is an error, contradicting
"never raises an error". -/
theorem claim_C7_counterexample :
    pyNormalizeText none = Except.error PyErr.attributeError := rfl

/-- Claim C7 as amended: the normalizer applied to an empty string yields
the empty string without error, and a record with every field absent is
turned into the empty search text without error (missing fields are
defaulted to `""` by `build_search_text` before normalization); but
`normalize_text` applied directly to `None` raises `AttributeError`
rather than returning the empty string. -/
theorem claim_C7_amended_empty_input :
    pyNormalizeText (some "") = Except.ok "" ∧
      build_search_text defaultRec = "" ∧
      pyNormalizeText none = Except.error PyErr.attributeError :=
  ⟨rfl, rfl, rfl⟩

/-! ## Length lemmas for the ranking pipeline -/

theorem length_insPair {α : Type*} [LinearOrder α] (p : Nat × α) (l : List (Nat × α)) :
    (insPair p l).length = l.length + 1 := by
  induction l with
  | nil => rfl
  | cons q r ih =>
    unfold insPair
    by_cases h : q.2 < p.2
    · rw [if_pos h]
      simp [ih]
    · rw [if_neg h]
      simp

theorem length_isortPairs {α : Type*} [LinearOrder α] (l : List (Nat × α)) :
    (isortPairs l).length = l.length := by
  induction l with
  | nil => rfl
  | cons p r ih =>
    unfold isortPairs
    rw [length_insPair, ih]
    rfl

theorem length_argsort {α : Type*} [LinearOrder α] (vs : List α) :
    (argsort vs).length = vs.length := by
  unfold argsort
  rw [List.length_map, length_isortPairs, List.enum_length]

theorem length_pySlice {α : Type*} (k : Int) (l : List α) :
    (pySlice k l).length =
      if 0 ≤ k then min k.toNat l.length else ((l.length : Int) + k).toNat := by
  unfold pySlice
  split_ifs with h
  · rw [List.length_take]
  · rw [List.length_take]
    omega

theorem length_rankTopK {α : Type*} [LinearOrder α] (vs : List α) (k : Int) :
    (rankTopK vs k).length =
      if 0 ≤ k then min k.toNat vs.length else ((vs.length : Int) + k).toNat := by
  unfold rankTopK
  rw [length_pySlice, List.length_reverse, length_argsort]

theorem length_simsOf (v : VecState) (m : List (List ℝ)) (q : String) :
    (simsOf v m q).length = m.length := List.length_map _ _

theorem length_fitMatrix (corpus : List String) : (fitMatrix corpus).length = corpus.length :=
  List.length_map _ _

theorem length_corpusOf (records : List FestivalRec) :
    (corpusOf records).length = records.length := List.length_map _ _

theorem retrieve_length (records : List FestivalRec) (q : String) (k : Int) :
    (retrieve records q k).length =
      if 0 ≤ k then min k.toNat records.length else ((records.length : Int) + k).toNat := by
  show ((rankTopK (simsOf _ _ q) k).map _).length = _
  rw [List.length_map, length_rankTopK, length_simsOf, length_fitMatrix, length_corpusOf]

/-- Claim C1, counterexample: the claim says `retrieve(q, top_k=k)` is the
empty sequence whenever `k ≤ 0`; but for `k = -1` on a two-document corpus
(with a non-empty vocabulary, so the fit succeeds) the Python slice
`[:(-1)]` keeps all but the last ranked document, so one result is
returned. -/
theorem claim_C1_counterexample :
    ((-1 : Int) ≤ 0) ∧ retrieve [recOf "f0" "alpha", recOf "f1" "beta"] "diwali" (-1) ≠ [] := by
  refine ⟨by norm_num, ?_⟩
  intro hnil
  have h := congrArg List.length hnil
  rw [retrieve_length] at h
  norm_num at h

/-- Claim C1 as amended: for `k ≥ 0` the result of `retrieve(q, top_k=k)`
has length `min k (corpus size)` (so `k = 0` gives the empty sequence, not
an error); but for `k < 0` the result is not empty in general: Python slice
semantics keep the first `corpus_size + k` ranked documents (clamped at 0). -/
theorem claim_C1_amended_top_k_length (records : List FestivalRec) (q : String) (k : Int) :
    (0 ≤ k → (retrieve records q k).length = min k.toNat records.length) ∧
      (k < 0 → (retrieve records q k).length = ((records.length : Int) + k).toNat) := by
  constructor
  · intro h
    rw [retrieve_length, if_pos h]
  · intro h
    rw [retrieve_length, if_neg (by omega)]

/-- Witness for the amended claim C1 at a concrete input whose corpus has a
non-empty vocabulary (so the real fit succeeds too). -/
theorem claim_C1_amended_top_k_length_witness :
    (0 ≤ (1 : Int)) ∧
      (retrieve [recOf "f0" "alpha", recOf "f1" "beta"] "festival" 1).length =
        min (1 : Int).toNat
          ([recOf "f0" "alpha", recOf "f1" "beta"] : List FestivalRec).length :=
  ⟨by decide,
    (claim_C1_amended_top_k_length [recOf "f0" "alpha", recOf "f1" "beta"] "festival" 1).1
      (by decide)⟩

/-! ## Sortedness and stability of the modelled argsort -/

theorem mem_insPair {α : Type*} [LinearOrder α] (p q : Nat × α) (l : List (Nat × α)) :
    q ∈ insPair p l ↔ q = p ∨ q ∈ l := by
  induction l with
  | nil => simp [insPair]
  | cons r s ih =>
    unfold insPair
    by_cases h : r.2 < p.2
    · rw [if_pos h]
      simp only [List.mem_cons, ih]
      tauto
    · rw [if_neg h]
      simp only [List.mem_cons]

theorem pairwise_insPair {α : Type*} [LinearOrder α] (p : Nat × α) (l : List (Nat × α))
    (hl : List.Pairwise RlexP l) (hp : ∀ q ∈ l, p.1 < q.1) :
    List.Pairwise RlexP (insPair p l) := by
  induction l with
  | nil => simp [insPair]
  | cons q r ih =>
    rw [List.pairwise_cons] at hl
    unfold insPair
    by_cases h : q.2 < p.2
    · rw [if_pos h]
      rw [List.pairwise_cons]
      constructor
      · intro s hs
        rcases (mem_insPair p s r).mp hs with rfl | hs'
        · exact Or.inl h
        · exact hl.1 s hs'
      · exact ih hl.2 (fun s hs => hp s (List.mem_cons_of_mem q hs))
    · rw [if_neg h]
      rw [List.pairwise_cons]
      constructor
      · intro s hs
        rcases List.mem_cons.mp hs with rfl | hs'
        · rcases lt_or_eq_of_le (le_of_not_lt h) with h2 | h2
          · exact Or.inl h2
          · exact Or.inr ⟨h2, hp s (List.mem_cons_self s r)⟩
        · rcases hl.1 s hs' with h3 | h3
          · exact Or.inl (lt_of_le_of_lt (le_of_not_lt h) h3)
          · rcases lt_or_eq_of_le (le_of_not_lt h) with h2 | h2
            · exact Or.inl (h2.trans_eq h3.1)
            · exact Or.inr ⟨h2.trans h3.1, hp s (List.mem_cons_of_mem q hs')⟩
      · rw [List.pairwise_cons]
        exact ⟨hl.1, hl.2⟩

theorem perm_insPair {α : Type*} [LinearOrder α] (p : Nat × α) (l : List (Nat × α)) :
    List.Perm (insPair p l) (p :: l) := by
  induction l with
  | nil => rfl
  | cons q r ih =>
    unfold insPair
    by_cases h : q.2 < p.2
    · rw [if_pos h]
      exact (ih.cons q).trans (List.Perm.swap p q r)
    · rw [if_neg h]

theorem perm_isortPairs {α : Type*} [LinearOrder α] (l : List (Nat × α)) :
    List.Perm (isortPairs l) l := by
  induction l with
  | nil => rfl
  | cons p r ih =>
    exact (perm_insPair p (isortPairs r)).trans (ih.cons p)

theorem pairwise_isortPairs {α : Type*} [LinearOrder α] (l : List (Nat × α))
    (hidx : List.Pairwise (fun p q : Nat × α => p.1 < q.1) l) :
    List.Pairwise RlexP (isortPairs l) := by
  induction l with
  | nil => exact List.Pairwise.nil
  | cons p r ih =>
    rw [List.pairwise_cons] at hidx
    apply pairwise_insPair p _ (ih hidx.2)
    intro q hq
    exact hidx.1 q ((perm_isortPairs r).mem_iff.mp hq)

theorem mem_enumFrom_spec {α : Type*} (l : List α) (n : ℕ) (q : ℕ × α) (d : α)
    (h : q ∈ l.enumFrom n) :
    n ≤ q.1 ∧ q.1 - n < l.length ∧ l.getD (q.1 - n) d = q.2 := by
  induction l generalizing n with
  | nil => simp [List.enumFrom] at h
  | cons c r ih =>
    rw [List.enumFrom_cons] at h
    rcases List.mem_cons.mp h with rfl | h'
    · refine ⟨le_refl n, by simp, ?_⟩
      simp
    · obtain ⟨h1, h2, h3⟩ := ih (n + 1) h'
      refine ⟨by omega, by simp; omega, ?_⟩
      have hq : q.1 - n = (q.1 - (n + 1)) + 1 := by omega
      rw [hq, List.getD_cons_succ]
      exact h3

theorem mem_enum_spec {α : Type*} (l : List α) (q : ℕ × α) (d : α) (h : q ∈ l.enum) :
    q.1 < l.length ∧ l.getD q.1 d = q.2 := by
  have := mem_enumFrom_spec l 0 q d h
  simpa using this

theorem pairwise_fst_lt_enumFrom {α : Type*} (n : ℕ) (l : List α) :
    List.Pairwise (fun p q : ℕ × α => p.1 < q.1) (l.enumFrom n) := by
  induction l generalizing n with
  | nil => exact List.Pairwise.nil
  | cons c r ih =>
    rw [List.enumFrom_cons, List.pairwise_cons]
    refine ⟨?_, ih (n + 1)⟩
    intro q hq
    have := (mem_enumFrom_spec r (n + 1) q c hq).1
    omega

theorem pairwise_fst_lt_enum {α : Type*} (l : List α) :
    List.Pairwise (fun p q : ℕ × α => p.1 < q.1) l.enum :=
  pairwise_fst_lt_enumFrom 0 l

theorem pySlice_map {α β : Type*} (f : α → β) (k : Int) (l : List α) :
    pySlice k (l.map f) = (pySlice k l).map f := by
  unfold pySlice
  rw [List.length_map]
  split_ifs with h
  · rw [List.map_take]
  · rw [List.map_take]

theorem rankTopK_eq_map_fst {α : Type*} [LinearOrder α] (vs : List α) (k : Int) :
    rankTopK vs k = (pySlice k (isortPairs vs.enum).reverse).map Prod.fst := by
  unfold rankTopK argsort
  rw [← List.map_reverse, pySlice_map]

theorem pairwise_pySlice {α : Type*} (R : α → α → Prop) (k : Int) (l : List α)
    (h : List.Pairwise R l) : List.Pairwise R (pySlice k l) := by
  unfold pySlice
  split_ifs <;> exact h.sublist (List.take_sublist _ _)

theorem mem_pySlice {α : Type*} (k : Int) (l : List α) (x : α) (h : x ∈ pySlice k l) :
    x ∈ l := by
  unfold pySlice at h
  split_ifs at h <;> exact List.take_subset _ _ h

theorem rankTopK_adjacent {α : Type*} [LinearOrder α] (d : α) (vs : List α) (k : Int)
    (i : ℕ) (h : i + 1 < (rankTopK vs k).length) :
    vs.getD ((rankTopK vs k).getD (i + 1) 0) d < vs.getD ((rankTopK vs k).getD i 0) d ∨
      (vs.getD ((rankTopK vs k).getD i 0) d = vs.getD ((rankTopK vs k).getD (i + 1) 0) d ∧
        (rankTopK vs k).getD (i + 1) 0 < (rankTopK vs k).getD i 0) := by
  have hmap : rankTopK vs k = (pySlice k (isortPairs vs.enum).reverse).map Prod.fst :=
    rankTopK_eq_map_fst vs k
  set X := pySlice k (isortPairs vs.enum).reverse with hXdef
  have hlen1 : i + 1 < X.length := by
    rw [hmap, List.length_map] at h
    exact h
  have hlen0 : i < X.length := by omega
  have hpw : List.Pairwise (fun p q : Nat × α => RlexP q p) X := by
    apply pairwise_pySlice
    rw [List.pairwise_reverse]
    exact pairwise_isortPairs _ (pairwise_fst_lt_enum vs)
  have hrel : RlexP (X.get ⟨i + 1, hlen1⟩) (X.get ⟨i, hlen0⟩) := by
    have hg := List.pairwise_iff_getElem.mp hpw i (i + 1) hlen0 hlen1 (by omega)
    simpa [List.get_eq_getElem] using hg
  have hgetD : ∀ (j : ℕ) (hj : j < X.length), (rankTopK vs k).getD j 0 = (X.get ⟨j, hj⟩).1 := by
    intro j hj
    rw [hmap, List.getD_eq_getElem _ _ (by rw [List.length_map]; exact hj), List.getElem_map]
    rfl
  have hval : ∀ (j : ℕ) (hj : j < X.length),
      vs.getD ((X.get ⟨j, hj⟩).1) d = (X.get ⟨j, hj⟩).2 := by
    intro j hj
    have hmem : X.get ⟨j, hj⟩ ∈ X := X.get_mem _ _
    have hmem2 : X.get ⟨j, hj⟩ ∈ (isortPairs vs.enum).reverse := mem_pySlice _ _ _ hmem
    rw [List.mem_reverse] at hmem2
    have hmem3 : X.get ⟨j, hj⟩ ∈ vs.enum := (perm_isortPairs vs.enum).mem_iff.mp hmem2
    exact (mem_enum_spec vs _ d hmem3).2
  rw [hgetD i hlen0, hgetD (i + 1) hlen1, hval i hlen0, hval (i + 1) hlen1]
  rcases hrel with h1 | h1
  · exact Or.inl h1
  · exact Or.inr ⟨h1.1.symm, h1.2⟩

/-! ## Relating `retrieve` results to the similarity vector and rank -/

theorem rankedIndices_length (records : List FestivalRec) (q : String) (k : Int) :
    (rankedIndices records q k).length = (retrieve records q k).length :=
  (List.length_map _ _).symm

theorem retrieve_eq_map (records : List FestivalRec) (q : String) (k : Int) :
    retrieve records q k = (rankedIndices records q k).map
      (mkResult records
        (simsOf (fitVectorizer (corpusOf records)) (fitMatrix (corpusOf records)) q)) := rfl

theorem rankTopK_eq_rankedIndices (records : List FestivalRec) (q : String) (k : Int) :
    rankTopK (simsOf (fitVectorizer (corpusOf records)) (fitMatrix (corpusOf records)) q) k =
      rankedIndices records q k := rfl

theorem retrieve_getD_score (records : List FestivalRec) (q : String) (k : Int) (j : ℕ)
    (hj : j < (retrieve records q k).length) :
    ((retrieve records q k).getD j defaultResult).score =
      (simsOf (fitVectorizer (corpusOf records)) (fitMatrix (corpusOf records)) q).getD
        ((rankedIndices records q k).getD j 0) 0 := by
  have hjr : j < (rankedIndices records q k).length := by
    rw [rankedIndices_length]
    exact hj
  rw [retrieve_eq_map,
    List.getD_eq_getElem _ _ (by rw [List.length_map]; exact hjr), List.getElem_map,
    List.getD_eq_getElem _ _ hjr]
  rfl

theorem retrieve_getD_fid (records : List FestivalRec) (q : String) (k : Int) (j : ℕ)
    (hj : j < (retrieve records q k).length) :
    ((retrieve records q k).getD j defaultResult).festival_id =
      (records.getD ((rankedIndices records q k).getD j 0) defaultRec).festival_id := by
  have hjr : j < (rankedIndices records q k).length := by
    rw [rankedIndices_length]
    exact hj
  rw [retrieve_eq_map,
    List.getD_eq_getElem _ _ (by rw [List.length_map]; exact hjr), List.getElem_map,
    List.getD_eq_getElem _ _ hjr]
  rfl

/-- Claim C2 as amended: the results of `retrieve` are ordered by
non-increasing similarity score, but when two documents have equal
similarity the one that appears LATER in the original document list is
ranked first — `argsort()[::-1]` reverses the ascending argsort, so under
the stable-argsort model ties come out in reverse document order, not the
original order the claim states. -/
theorem claim_C2_amended_ordering (records : List FestivalRec) (query : String) (k : Int)
    (i : ℕ) (h : i + 1 < (retrieve records query k).length) :
    ((retrieve records query k).getD (i + 1) defaultResult).score ≤
        ((retrieve records query k).getD i defaultResult).score ∧
      (((retrieve records query k).getD i defaultResult).score =
          ((retrieve records query k).getD (i + 1) defaultResult).score →
        (rankedIndices records query k).getD (i + 1) 0 <
          (rankedIndices records query k).getD i 0) := by
  have h0 : i < (retrieve records query k).length := by omega
  rw [retrieve_getD_score records query k i h0, retrieve_getD_score records query k (i + 1) h]
  have hlen : i + 1 <
      (rankTopK (simsOf (fitVectorizer (corpusOf records)) (fitMatrix (corpusOf records))
        query) k).length := by
    rw [rankTopK_eq_rankedIndices, rankedIndices_length]
    exact h
  have hadj := rankTopK_adjacent (0 : ℝ)
    (simsOf (fitVectorizer (corpusOf records)) (fitMatrix (corpusOf records)) query) k i hlen
  rw [rankTopK_eq_rankedIndices] at hadj
  rcases hadj with h1 | h1
  · refine ⟨le_of_lt h1, fun he => ?_⟩
    rw [he] at h1
    exact absurd h1 (lt_irrefl _)
  · exact ⟨le_of_eq h1.1.symm, fun _ => h1.2⟩

/-- Witness for the amended claim C2 at a concrete input. -/
theorem claim_C2_amended_ordering_witness :
    0 + 1 < (retrieve [recOf "f0" "alpha", recOf "f1" "beta"] "festival" 2).length ∧
      (((retrieve [recOf "f0" "alpha", recOf "f1" "beta"] "festival" 2).getD 1
          defaultResult).score ≤
        ((retrieve [recOf "f0" "alpha", recOf "f1" "beta"] "festival" 2).getD 0
          defaultResult).score) := by
  have hlen : 0 + 1 < (retrieve [recOf "f0" "alpha", recOf "f1" "beta"] "festival" 2).length := by
    rw [retrieve_length]
    decide
  exact ⟨hlen,
    (claim_C2_amended_ordering [recOf "f0" "alpha", recOf "f1" "beta"] "festival" 2 0 hlen).1⟩

/-! ## The all-zero query vector -/

theorem zipWith_count_zero (s : String) (ts : List String) (ys : List ℝ)
    (hq : ∀ t ∈ ts, (analyzeDoc s).count t = 0) :
    ∀ x ∈ List.zipWith (fun t idf => (((analyzeDoc s).count t : ℕ) : ℝ) * idf) ts ys, x = 0 := by
  induction ts generalizing ys with
  | nil => simp
  | cons t r ih =>
    cases ys with
    | nil => simp
    | cons y ys' =>
      intro x hx
      rcases List.mem_cons.mp hx with rfl | hx'
      · show (((analyzeDoc s).count t : ℕ) : ℝ) * y = 0
        rw [hq t (List.mem_cons_self t r)]
        simp
      · exact ih ys' (fun u hu => hq u (List.mem_cons_of_mem t hu)) x hx'

theorem sumSq_eq_zero (v : List ℝ) (h : ∀ x ∈ v, x = 0) : sumSq v = 0 := by
  induction v with
  | nil => rfl
  | cons x r ih =>
    unfold sumSq at ih ⊢
    rw [List.map_cons, List.sum_cons, h x (List.mem_cons_self x r),
      ih (fun u hu => h u (List.mem_cons_of_mem x hu))]
    norm_num

theorem l2normalize_all_zero (v : List ℝ) (h : ∀ x ∈ v, x = 0) : l2normalize v = v := by
  unfold l2normalize
  rw [if_pos]
  unfold l2norm
  rw [sumSq_eq_zero v h, Real.sqrt_zero]

theorem dotL_left_zero (u v : List ℝ) (h : ∀ x ∈ u, x = 0) : dotL u v = 0 := by
  induction u generalizing v with
  | nil => rfl
  | cons a r ih =>
    cases v with
    | nil => rfl
    | cons b v' =>
      unfold dotL
      rw [List.zipWith_cons_cons, List.sum_cons, h a (List.mem_cons_self a r)]
      have := ih v' (fun u hu => h u (List.mem_cons_of_mem a hu))
      unfold dotL at this
      rw [this]
      norm_num

theorem transformDoc_all_zero (v : VecState) (s : String)
    (hq : ∀ t ∈ v.vocab, (analyzeDoc s).count t = 0) :
    ∀ x ∈ transformDoc v s, x = 0 := by
  unfold transformDoc
  rw [l2normalize_all_zero _ (zipWith_count_zero s v.vocab v.idf hq)]
  exact zipWith_count_zero s v.vocab v.idf hq

theorem simsOf_all_zero (v : VecState) (m : List (List ℝ)) (query : String)
    (hq : ∀ t ∈ v.vocab, (analyzeDoc (normalize_text query)).count t = 0) :
    ∀ x ∈ simsOf v m query, x = 0 := by
  intro x hx
  rcases List.mem_map.mp hx with ⟨row, _, rfl⟩
  unfold cosineSim
  rw [l2normalize_all_zero _ (transformDoc_all_zero v _ hq)]
  exact dotL_left_zero _ _ (transformDoc_all_zero v _ hq)

theorem isortPairs_id_of_no_lt {α : Type*} [LinearOrder α] (l : List (Nat × α))
    (h : List.Pairwise (fun p q : Nat × α => ¬ q.2 < p.2) l) : isortPairs l = l := by
  induction l with
  | nil => rfl
  | cons p r ih =>
    rw [List.pairwise_cons] at h
    show insPair p (isortPairs r) = p :: r
    rw [ih h.2]
    cases r with
    | nil => rfl
    | cons q t =>
      show (if q.2 < p.2 then q :: insPair p t else p :: q :: t) = p :: q :: t
      rw [if_neg (h.1 q (List.mem_cons_self q t))]

theorem argsort_const {α : Type*} [LinearOrder α] (vs : List α) (c : α)
    (h : ∀ x ∈ vs, x = c) : argsort vs = List.range vs.length := by
  unfold argsort
  rw [isortPairs_id_of_no_lt]
  · rw [List.enum_eq_enumFrom, List.enumFrom_map_fst, ← List.range_eq_range']
  · apply List.pairwise_of_forall_mem_list
    intro p hp q hq
    have hp2 := (mem_enum_spec vs p c hp).2
    have hp1 := (mem_enum_spec vs p c hp).1
    have hq2 := (mem_enum_spec vs q c hq).2
    have hq1 := (mem_enum_spec vs q c hq).1
    have hpc : p.2 = c := by
      rw [← hp2, List.getD_eq_getElem _ _ hp1]
      exact h _ (vs.getElem_mem hp1)
    have hqc : q.2 = c := by
      rw [← hq2, List.getD_eq_getElem _ _ hq1]
      exact h _ (vs.getElem_mem hq1)
    rw [hpc, hqc]
    exact lt_irrefl c

theorem rankedIndices_oov (records : List FestivalRec) (query : String) (k : Int)
    (hq : ∀ t ∈ vocabOf (corpusOf records),
      (analyzeDoc (normalize_text query)).count t = 0) :
    rankedIndices records query k = pySlice k (List.range records.length).reverse := by
  unfold rankedIndices rankTopK
  rw [argsort_const _ 0 (simsOf_all_zero _ _ _ hq), length_simsOf, length_fitMatrix,
    length_corpusOf]

theorem getD_zero_of_all_zero (l : List ℝ) (j : ℕ) (h : ∀ x ∈ l, x = 0) : l.getD j 0 = 0 := by
  by_cases hj : j < l.length
  · rw [List.getD_eq_getElem _ _ hj]
    exact h _ (l.getElem_mem hj)
  · rw [List.getD_eq_default _ _ (by omega)]

theorem retrieve_score_oov (records : List FestivalRec) (query : String) (k : Int) (i : ℕ)
    (hq : ∀ t ∈ vocabOf (corpusOf records),
      (analyzeDoc (normalize_text query)).count t = 0) :
    ((retrieve records query k).getD i defaultResult).score = 0 := by
  by_cases hi : i < (retrieve records query k).length
  · rw [retrieve_getD_score records query k i hi]
    exact getD_zero_of_all_zero _ _ (simsOf_all_zero _ _ _ hq)
  · rw [List.getD_eq_default _ _ (by omega)]
    rfl

/-- Claim C8 as amended: for an all-zero query vector (empty query or only
out-of-vocabulary terms) `retrieve` raises no error and returns the usual
top-k number of results, every returned score is 0.0 — but the order is
descending original index (the reversed argsort puts LATER documents
first), not the spec's earlier-document-first stable tie-break. -/
theorem claim_C8_amended_oov_query (records : List FestivalRec) (query : String) (k : Int)
    (hq : ∀ t ∈ vocabOf (corpusOf records),
      (analyzeDoc (normalize_text query)).count t = 0) :
    rankedIndices records query k = pySlice k (List.range records.length).reverse ∧
      (∀ i, ((retrieve records query k).getD i defaultResult).score = 0) ∧
      (0 ≤ k → (retrieve records query k).length = min k.toNat records.length) := by
  refine ⟨rankedIndices_oov records query k hq, ?_, ?_⟩
  · intro i
    exact retrieve_score_oov records query k i hq
  · intro hk
    rw [retrieve_length, if_pos hk]

/-- Witness for the amended claim C8 at a concrete input: the empty query
against a two-document corpus. -/
theorem claim_C8_amended_oov_query_witness :
    (∀ t ∈ vocabOf (corpusOf [recOf "f0" "alpha", recOf "f1" "beta"]),
        (analyzeDoc (normalize_text "")).count t = 0) ∧
      rankedIndices [recOf "f0" "alpha", recOf "f1" "beta"] "" 3 =
        pySlice 3 (List.range ([recOf "f0" "alpha", recOf "f1" "beta"] :
          List FestivalRec).length).reverse :=
  ⟨by decide,
    (claim_C8_amended_oov_query [recOf "f0" "alpha", recOf "f1" "beta"] "" 3 (by decide)).1⟩

/-- Claim C8, counterexample: for the empty query (all similarities equal,
every score 0) against a two-document corpus the ranked indices are
`[1, 0]` — descending original index — not the `[0, 1]` that the spec's
stable earlier-document-first tie-break dictates. -/
theorem claim_C8_counterexample :
    rankedIndices [recOf "g0" "gamma", recOf "g1" "delta"] "" 2 = [1, 0] ∧
      rankedIndices [recOf "g0" "gamma", recOf "g1" "delta"] "" 2 ≠ [0, 1] := by
  have h := rankedIndices_oov [recOf "g0" "gamma", recOf "g1" "delta"] "" 2 (by decide)
  rw [h]
  exact ⟨rfl, by decide⟩

/-- Claim C2, counterexample: two documents with equal similarity to the
query (an out-of-vocabulary query, both scores 0), yet the first returned
result is document 1 (`"f1"`) and the second is document 0 (`"f0"`): the
tie is broken by REVERSE original order, not by original document order as
the claim states. -/
theorem claim_C2_counterexample :
    ((retrieve [recOf "f0" "alpha", recOf "f1" "beta"] "zzzz" 2).getD 0
        defaultResult).score =
      ((retrieve [recOf "f0" "alpha", recOf "f1" "beta"] "zzzz" 2).getD 1
        defaultResult).score ∧
      ((retrieve [recOf "f0" "alpha", recOf "f1" "beta"] "zzzz" 2).getD 0
          defaultResult).festival_id = some "f1" ∧
      ((retrieve [recOf "f0" "alpha", recOf "f1" "beta"] "zzzz" 2).getD 1
          defaultResult).festival_id = some "f0" := by
  have hq : ∀ t ∈ vocabOf (corpusOf [recOf "f0" "alpha", recOf "f1" "beta"]),
      (analyzeDoc (normalize_text "zzzz")).count t = 0 := by decide
  have hrank := rankedIndices_oov [recOf "f0" "alpha", recOf "f1" "beta"] "zzzz" 2 hq
  have hlen1 : 1 < (retrieve [recOf "f0" "alpha", recOf "f1" "beta"] "zzzz" 2).length := by
    rw [retrieve_length]
    decide
  have hlen0 : 0 < (retrieve [recOf "f0" "alpha", recOf "f1" "beta"] "zzzz" 2).length := by
    omega
  refine ⟨?_, ?_, ?_⟩
  · rw [retrieve_score_oov _ _ _ 0 hq, retrieve_score_oov _ _ _ 1 hq]
  · rw [retrieve_getD_fid _ _ _ 0 hlen0, hrank]
    rfl
  · rw [retrieve_getD_fid _ _ _ 1 hlen1, hrank]
    rfl

/-! ## Load-or-build, round trip, and purity of `retrieve` -/

/-- Claim C4, counterexample: both artifact files are present but the
matrix is shape-inconsistent with the vectorizer's vocabulary and with the
document list, yet the load branch returns the artifacts verbatim — no
CorruptIndex failure, no validation at all. -/
theorem claim_C4_counterexample :
    ¬ shapeConsistent badVec badMatrix [recOf "f0" "alpha", recOf "f1" "beta"] ∧
      loadOrBuild ⟨some badVec, some badMatrix⟩
          (corpusOf [recOf "f0" "alpha", recOf "f1" "beta"]) =
        ((badVec, badMatrix), ⟨some badVec, some badMatrix⟩) := by
  constructor
  · rintro ⟨h1, -, -⟩
    simp [badMatrix] at h1
  · rfl

/-- Claim C4 as amended: the module performs no load-time validation
whatsoever.  When both artifact files are present it loads them verbatim —
even if missing-in-content, truncated to the wrong shape, or inconsistent
with each other or the document list — and when either file is absent it
silently rebuilds from the corpus and saves, rather than failing with a
DataUnavailable/CorruptIndex condition. -/
theorem claim_C4_amended_load_or_build (fs : IndexFiles) (corpus : List String) :
    (∀ v m, fs.vec_file = some v → fs.matrix_file = some m →
        loadOrBuild fs corpus = ((v, m), fs)) ∧
      (fs.vec_file = none ∨ fs.matrix_file = none →
        loadOrBuild fs corpus =
          ((fitVectorizer corpus, fitMatrix corpus),
           ⟨some (fitVectorizer corpus), some (fitMatrix corpus)⟩)) := by
  obtain ⟨vf, mf⟩ := fs
  constructor
  · intro v m hv hm
    simp only at hv hm
    subst hv
    subst hm
    rfl
  · intro h
    rcases h with h | h <;> simp only at h <;> subst h
    · rfl
    · cases vf <;> rfl

/-- Witness for the amended claim C4: a present (inconsistent) pair of
artifacts is loaded verbatim. -/
theorem claim_C4_amended_load_or_build_witness :
    loadOrBuild ⟨some badVec, some badMatrix⟩ ["doc one"] =
      ((badVec, badMatrix), ⟨some badVec, some badMatrix⟩) :=
  (claim_C4_amended_load_or_build ⟨some badVec, some badMatrix⟩ ["doc one"]).1
    badVec badMatrix rfl rfl

/-- Claim C5: fit → save → load round-trips exactly.  Building from an
empty store saves both artifacts; loading from the resulting store yields
the identical vectorizer (vocabulary and IDF) and the identical matrix
(hence identical shape), and `retrieve` over the loaded artifacts returns
exactly the results of `retrieve` over the freshly fitted ones for every
query and `top_k`.  (The document list itself is re-read from
`festivals_cleaned.json` on every run, not persisted, so document order is
unchanged by construction.) -/
theorem claim_C5_round_trip (records : List FestivalRec) (query : String) (top_k : Int) :
    (loadOrBuild (loadOrBuild ⟨none, none⟩ (corpusOf records)).2 (corpusOf records)).1 =
        (loadOrBuild ⟨none, none⟩ (corpusOf records)).1 ∧
      ((loadOrBuild (loadOrBuild ⟨none, none⟩ (corpusOf records)).2 (corpusOf records)).1.1.vocab
          = vocabOf (corpusOf records) ∧
        (loadOrBuild (loadOrBuild ⟨none, none⟩ (corpusOf records)).2 (corpusOf records)).1.1.idf
          = idfOf (corpusOf records) ∧
        (loadOrBuild (loadOrBuild ⟨none, none⟩ (corpusOf records)).2 (corpusOf records)).1.2
          = fitMatrix (corpusOf records)) ∧
      retrieveWith
          (loadOrBuild (loadOrBuild ⟨none, none⟩ (corpusOf records)).2 (corpusOf records)).1.1
          (loadOrBuild (loadOrBuild ⟨none, none⟩ (corpusOf records)).2 (corpusOf records)).1.2
          records query top_k =
        retrieveWith (fitVectorizer (corpusOf records)) (fitMatrix (corpusOf records))
          records query top_k :=
  ⟨rfl, ⟨rfl, rfl, rfl⟩, rfl⟩

/-- Claim C9: `retrieve` never mutates the shared fitted state: the module
state after a call (records, vocabulary, IDF vector, document-term matrix)
is identical to the state before it.  Every step of the Python body only
reads the globals — `strip`/`lower`/`re.sub` build new strings,
`transform`, `cosine_similarity` and `argsort` allocate fresh arrays, and
the result list is freshly built — so the state-passing embedding returns
the state unchanged. -/
theorem claim_C9_retrieve_pure (st : ModuleState) (query : String) (top_k : Int) :
    (retrieveSt st query top_k).2 = st ∧
      (retrieveSt st query top_k).2.vectorizer.vocab = st.vectorizer.vocab ∧
      (retrieveSt st query top_k).2.vectorizer.idf = st.vectorizer.idf ∧
      (retrieveSt st query top_k).2.tfidf_matrix = st.tfidf_matrix ∧
      (retrieveSt st query top_k).2.records = st.records :=
  ⟨rfl, rfl, rfl, rfl, rfl⟩

/-! ## The TF-IDF weighting formula -/

theorem getD_map_lt {α β : Type*} (f : α → β) (l : List α) (i : ℕ) (dflt : β) (d : α)
    (h : i < l.length) : (l.map f).getD i dflt = f (l.getD i d) := by
  rw [List.getD_eq_getElem _ _ (by rw [List.length_map]; exact h), List.getElem_map,
    List.getD_eq_getElem _ _ h]

theorem getD_zipWith_lt {α β γ : Type*} (f : α → β → γ) (as : List α) (bs : List β) (i : ℕ)
    (dflt : γ) (da : α) (db : β) (ha : i < as.length) (hb : i < bs.length) :
    (List.zipWith f as bs).getD i dflt = f (as.getD i da) (bs.getD i db) := by
  rw [List.getD_eq_getElem _ _ (by rw [List.length_zipWith]; omega), List.getElem_zipWith,
    List.getD_eq_getElem _ _ ha, List.getD_eq_getElem _ _ hb]

theorem length_tfRow (corpus : List String) (d : String) :
    (tfRow corpus d).length = (vocabOf corpus).length := List.length_map _ _

theorem length_idfOf (corpus : List String) :
    (idfOf corpus).length = (vocabOf corpus).length := List.length_map _ _

theorem length_rawRow (corpus : List String) (d : String) :
    (rawRow corpus d).length = (vocabOf corpus).length := by
  unfold rawRow
  rw [List.length_zipWith, length_tfRow, length_idfOf, min_self]

theorem rawRow_getD (corpus : List String) (d : String) (tIdx : ℕ)
    (ht : tIdx < (vocabOf corpus).length) :
    (rawRow corpus d).getD tIdx 0 =
      (((analyzeDoc d).count ((vocabOf corpus).getD tIdx "") : ℕ) : ℝ) *
        (Real.log ((1 + (corpus.length : ℝ)) /
          (1 + ((corpus.countP fun s =>
            decide ((vocabOf corpus).getD tIdx "" ∈ analyzeDoc s)) : ℝ))) + 1) := by
  unfold rawRow
  rw [getD_zipWith_lt _ _ _ _ _ 0 0 (by rw [length_tfRow]; exact ht)
    (by rw [length_idfOf]; exact ht)]
  unfold tfRow idfOf
  rw [getD_map_lt _ _ _ _ "" ht, getD_map_lt _ _ _ _ "" ht]
  unfold docFreq
  rfl

/-- Claim C3: for every corpus of `N` documents, the fitted weight of term
`t` in document `d` is `tf(t,d) · (ln ((1+N)/(1+df t)) + 1)` — `tf` the raw
count of `t` among the analyzed terms of `d`, `df t` the number of
documents containing `t` — and the document's weight row is then
L2-normalized (each entry divided by the row's Euclidean norm), an
all-zero row being left unchanged rather than raising an error. -/
theorem claim_C3_tfidf_formula (corpus : List String) (dIdx tIdx : ℕ)
    (hd : dIdx < corpus.length) (ht : tIdx < (vocabOf corpus).length) :
    ((fitMatrix corpus).getD dIdx []).getD tIdx 0 =
      (if l2norm (rawRow corpus (corpus.getD dIdx "")) = 0 then
        (((analyzeDoc (corpus.getD dIdx "")).count ((vocabOf corpus).getD tIdx "") : ℕ) : ℝ) *
          (Real.log ((1 + (corpus.length : ℝ)) /
            (1 + ((corpus.countP fun s =>
              decide ((vocabOf corpus).getD tIdx "" ∈ analyzeDoc s)) : ℝ))) + 1)
      else
        ((((analyzeDoc (corpus.getD dIdx "")).count ((vocabOf corpus).getD tIdx "") : ℕ) : ℝ) *
          (Real.log ((1 + (corpus.length : ℝ)) /
            (1 + ((corpus.countP fun s =>
              decide ((vocabOf corpus).getD tIdx "" ∈ analyzeDoc s)) : ℝ))) + 1)) /
          l2norm (rawRow corpus (corpus.getD dIdx ""))) := by
  have hfm : (fitMatrix corpus).getD dIdx [] =
      l2normalize (rawRow corpus (corpus.getD dIdx "")) :=
    getD_map_lt _ corpus dIdx [] "" hd
  rw [hfm]
  have hlenR : tIdx < (rawRow corpus (corpus.getD dIdx "")).length := by
    rw [length_rawRow]
    exact ht
  unfold l2normalize
  split_ifs with h
  · exact rawRow_getD corpus _ tIdx ht
  · rw [getD_map_lt _ _ _ _ 0 hlenR, rawRow_getD corpus _ tIdx ht]

/-- Witness for claim C3 at a concrete corpus. -/
theorem claim_C3_tfidf_formula_witness :
    0 < (["alpha beta", "beta"] : List String).length ∧
      0 < (vocabOf ["alpha beta", "beta"]).length ∧
      ((fitMatrix ["alpha beta", "beta"]).getD 0 []).getD 0 0 =
        (if l2norm (rawRow ["alpha beta", "beta"]
            ((["alpha beta", "beta"] : List String).getD 0 "")) = 0 then
          (((analyzeDoc ((["alpha beta", "beta"] : List String).getD 0 "")).count
              ((vocabOf ["alpha beta", "beta"]).getD 0 "") : ℕ) : ℝ) *
            (Real.log ((1 + ((["alpha beta", "beta"] : List String).length : ℝ)) /
              (1 + (((["alpha beta", "beta"] : List String).countP fun s =>
                decide ((vocabOf ["alpha beta", "beta"]).getD 0 "" ∈ analyzeDoc s)) : ℝ))) + 1)
        else
          ((((analyzeDoc ((["alpha beta", "beta"] : List String).getD 0 "")).count
              ((vocabOf ["alpha beta", "beta"]).getD 0 "") : ℕ) : ℝ) *
            (Real.log ((1 + ((["alpha beta", "beta"] : List String).length : ℝ)) /
              (1 + (((["alpha beta", "beta"] : List String).countP fun s =>
                decide ((vocabOf ["alpha beta", "beta"]).getD 0 "" ∈ analyzeDoc s)) : ℝ))) + 1)) /
            l2norm (rawRow ["alpha beta", "beta"]
              ((["alpha beta", "beta"] : List String).getD 0 ""))) :=
  ⟨by decide, by decide, claim_C3_tfidf_formula ["alpha beta", "beta"] 0 0 (by decide) (by decide)⟩

/-! ## Score bounds: Cauchy–Schwarz over lists -/

theorem sumSq_nonneg (v : List ℝ) : 0 ≤ sumSq v := by
  apply List.sum_nonneg
  intro x hx
  rcases List.mem_map.mp hx with ⟨y, -, rfl⟩
  exact sq_nonneg y

theorem sum_sq_eq_finset (v : List ℝ) :
    (v.map (fun x => x ^ 2)).sum = ∑ i in Finset.range v.length, (v.getD i 0) ^ 2 := by
  induction v with
  | nil => simp
  | cons a r ih =>
    rw [List.map_cons, List.sum_cons, ih, List.length_cons, Finset.sum_range_succ']
    simp only [List.getD_cons_succ, List.getD_cons_zero]
    ring

theorem dot_eq_finset (u v : List ℝ) :
    dotL u v = ∑ i in Finset.range (min u.length v.length), (u.getD i 0) * (v.getD i 0) := by
  induction u generalizing v with
  | nil => simp [dotL]
  | cons a r ih =>
    cases v with
    | nil => simp [dotL]
    | cons b s =>
      unfold dotL
      rw [List.zipWith_cons_cons, List.sum_cons]
      have ihr := ih s
      unfold dotL at ihr
      rw [ihr, List.length_cons, List.length_cons, Nat.succ_min_succ, Finset.sum_range_succ']
      simp only [List.getD_cons_succ, List.getD_cons_zero]
      ring

theorem list_cauchy_schwarz (u v : List ℝ) : (dotL u v) ^ 2 ≤ sumSq u * sumSq v := by
  rw [dot_eq_finset]
  unfold sumSq
  rw [sum_sq_eq_finset, sum_sq_eq_finset]
  refine le_trans
    (Finset.sum_mul_sq_le_sq_mul_sq (Finset.range (min u.length v.length))
      (fun i => u.getD i 0) (fun i => v.getD i 0)) ?_
  apply mul_le_mul
  · exact Finset.sum_le_sum_of_subset_of_nonneg
      (Finset.range_subset.mpr (min_le_left _ _)) (fun i _ _ => sq_nonneg _)
  · exact Finset.sum_le_sum_of_subset_of_nonneg
      (Finset.range_subset.mpr (min_le_right _ _)) (fun i _ _ => sq_nonneg _)
  · exact Finset.sum_nonneg (fun i _ => sq_nonneg _)
  · exact Finset.sum_nonneg (fun i _ => sq_nonneg _)

theorem sum_map_div (l : List ℝ) (f : ℝ → ℝ) (c : ℝ) :
    (l.map (fun x => f x / c)).sum = (l.map f).sum / c := by
  induction l with
  | nil => simp
  | cons a r ih =>
    rw [List.map_cons, List.sum_cons, ih, List.map_cons, List.sum_cons, add_div]

theorem sumSq_l2normalize_le_one (v : List ℝ) : sumSq (l2normalize v) ≤ 1 := by
  unfold l2normalize
  split_ifs with h
  · have h0 : sumSq v = 0 := by
      have := (Real.sqrt_eq_zero (sumSq_nonneg v)).mp h
      exact this
    rw [h0]
    norm_num
  · have hs : sumSq (v.map (fun x => x / l2norm v)) = sumSq v / (l2norm v) ^ 2 := by
      unfold sumSq
      rw [List.map_map]
      have heq : ((fun x => x ^ 2) ∘ fun x => x / l2norm v) =
          (fun x => x ^ 2 / (l2norm v) ^ 2) := by
        funext x
        simp [div_pow]
      rw [heq]
      have := sum_map_div v (fun x => x ^ 2) ((l2norm v) ^ 2)
      simpa using this
    rw [hs]
    have hsq : (l2norm v) ^ 2 = sumSq v := Real.sq_sqrt (sumSq_nonneg v)
    rw [hsq]
    have hne : sumSq v ≠ 0 := by
      intro h0
      apply h
      unfold l2norm
      rw [h0, Real.sqrt_zero]
    rw [div_self hne]

theorem l2normalize_nonneg (v : List ℝ) (hv : ∀ x ∈ v, 0 ≤ x) :
    ∀ x ∈ l2normalize v, 0 ≤ x := by
  unfold l2normalize
  split_ifs with h
  · exact hv
  · intro x hx
    rcases List.mem_map.mp hx with ⟨y, hy, rfl⟩
    exact div_nonneg (hv y hy) (Real.sqrt_nonneg _)

theorem exists_of_mem_zipWith {α β γ : Type*} (f : α → β → γ) (as : List α) (bs : List β)
    (x : γ) (h : x ∈ List.zipWith f as bs) : ∃ a ∈ as, ∃ b ∈ bs, x = f a b := by
  induction as generalizing bs with
  | nil => simp at h
  | cons a as' ih =>
    cases bs with
    | nil => simp at h
    | cons b bs' =>
      rw [List.zipWith_cons_cons] at h
      rcases List.mem_cons.mp h with rfl | h'
      · exact ⟨a, List.mem_cons_self a as', b, List.mem_cons_self b bs', rfl⟩
      · rcases ih bs' h' with ⟨a', ha', b', hb', rfl⟩
        exact ⟨a', List.mem_cons_of_mem a ha', b', List.mem_cons_of_mem b hb', rfl⟩

theorem dotL_nonneg (u v : List ℝ) (hu : ∀ x ∈ u, 0 ≤ x) (hv : ∀ x ∈ v, 0 ≤ x) :
    0 ≤ dotL u v := by
  apply List.sum_nonneg
  intro x hx
  rcases exists_of_mem_zipWith _ u v x hx with ⟨a, ha, b, hb, rfl⟩
  exact mul_nonneg (hu a ha) (hv b hb)

theorem cosineSim_bounds (u v : List ℝ) (hu : ∀ x ∈ u, 0 ≤ x) (hv : ∀ x ∈ v, 0 ≤ x) :
    0 ≤ cosineSim u v ∧ cosineSim u v ≤ 1 := by
  have hnn : 0 ≤ cosineSim u v :=
    dotL_nonneg _ _ (l2normalize_nonneg u hu) (l2normalize_nonneg v hv)
  refine ⟨hnn, ?_⟩
  have hcs := list_cauchy_schwarz (l2normalize u) (l2normalize v)
  have h1 := sumSq_l2normalize_le_one u
  have h2 := sumSq_l2normalize_le_one v
  have h1n := sumSq_nonneg (l2normalize u)
  have h2n := sumSq_nonneg (l2normalize v)
  unfold cosineSim at hnn ⊢
  nlinarith [hcs, hnn]

theorem idfOf_nonneg (corpus : List String) : ∀ b ∈ idfOf corpus, 0 ≤ b := by
  intro b hb
  rcases List.mem_map.mp hb with ⟨t, -, rfl⟩
  have hdf : docFreq corpus t ≤ corpus.length := List.countP_le_length _
  have hpos : (0 : ℝ) < 1 + (docFreq corpus t : ℝ) := by positivity
  have h1 : (1 : ℝ) ≤ (1 + (corpus.length : ℝ)) / (1 + (docFreq corpus t : ℝ)) := by
    rw [le_div_iff₀ hpos, one_mul]
    have : (docFreq corpus t : ℝ) ≤ (corpus.length : ℝ) := Nat.cast_le.mpr hdf
    linarith
  have hlog := Real.log_nonneg h1
  linarith

theorem rawRow_nonneg (corpus : List String) (d : String) : ∀ x ∈ rawRow corpus d, 0 ≤ x := by
  intro x hx
  rcases exists_of_mem_zipWith _ _ _ x hx with ⟨tf, -, idf, hidf, rfl⟩
  exact mul_nonneg (Nat.cast_nonneg tf) (idfOf_nonneg corpus idf hidf)

theorem transformDoc_fit_nonneg (corpus : List String) (s : String) :
    ∀ x ∈ transformDoc (fitVectorizer corpus) s, 0 ≤ x := by
  apply l2normalize_nonneg
  intro x hx
  rcases exists_of_mem_zipWith _ _ _ x hx with ⟨t, -, idf, hidf, rfl⟩
  exact mul_nonneg (Nat.cast_nonneg _) (idfOf_nonneg corpus idf hidf)

theorem simsOf_fit_getD_bounds (corpus : List String) (q : String) (j : ℕ) :
    0 ≤ (simsOf (fitVectorizer corpus) (fitMatrix corpus) q).getD j 0 ∧
      (simsOf (fitVectorizer corpus) (fitMatrix corpus) q).getD j 0 ≤ 1 := by
  by_cases hj : j < (simsOf (fitVectorizer corpus) (fitMatrix corpus) q).length
  · rw [List.getD_eq_getElem _ _ hj]
    have hmem := (simsOf (fitVectorizer corpus) (fitMatrix corpus) q).getElem_mem hj
    rcases List.mem_map.mp hmem with ⟨row, hrow, heq⟩
    rw [← heq]
    rcases List.mem_map.mp hrow with ⟨d, -, rfl⟩
    exact cosineSim_bounds _ _
      (transformDoc_fit_nonneg corpus _)
      (l2normalize_nonneg _ (rawRow_nonneg corpus d))
  · rw [List.getD_eq_default _ _ (by omega)]
    exact ⟨le_refl 0, zero_le_one⟩

/-- Claim C10: every score `retrieve` returns lies in the closed interval
`[0, 1]`: the TF-IDF entries are nonnegative (`idf ≥ 1 > 0` since
`df ≤ N`), `cosine_similarity` L2-normalizes both arguments, and the dot
product of L2-normalized nonnegative vectors is in `[0, 1]` by
Cauchy–Schwarz.  (Out-of-range positions of `getD` carry the default score
0, also in the interval.) -/
theorem claim_C10_score_bounds (records : List FestivalRec) (query : String) (top_k : Int)
    (i : ℕ) :
    0 ≤ ((retrieve records query top_k).getD i defaultResult).score ∧
      ((retrieve records query top_k).getD i defaultResult).score ≤ 1 := by
  by_cases hi : i < (retrieve records query top_k).length
  · rw [retrieve_getD_score records query top_k i hi]
    exact simsOf_fit_getD_bounds (corpusOf records) query _
  · rw [List.getD_eq_default _ _ (by omega)]
    exact ⟨le_refl 0, zero_le_one⟩
